import Mathlib

/-!
Verification of the quantum gate library in
src/quantum_amplitude_estimation_demo/lib.py.

Every gate class of the library builds, in its method named define, a
list of instructions: pairs of a sub-gate and the list of register
qubit indices the sub-gate acts on.  We embed those lists directly.
A gate expression is either a standard qiskit gate (X, H, Z, Swap,
multi-controlled X, controlled phase CU1) or one of the custom gates of
the library, or a wrapper for the qiskit inverse and control
constructions.  The CU1 parameter is stored as the exact dyadic
multiple of pi that the source computes: the constructor CU1G num pw
stands for the angle num * pi / 2 ^ pw, which also matches the float
value num * np.pi / 2.0 ** pw exactly, scaling of a float by a power of
two being exact.

The file has two parts: first all definitions, translated from the
source, then all theorems about them.
-/

inductive GateExpr : Type where
  | XG : GateExpr
  | HG : GateExpr
  | ZG : GateExpr
  | SwapG : GateExpr
  | MCXG : ℕ → GateExpr
  | CU1G : ℤ → ℕ → GateExpr
  | CustomMCX : ℕ → Option (List Bool) → GateExpr
  | BooleanOracle : List Bool → GateExpr
  | QFTG : ℕ → Bool → GateExpr
  | invG : GateExpr → GateExpr
  | ctrlG : GateExpr → GateExpr
deriving DecidableEq

/-- Instruction of a gate decomposition: a sub-gate together with the
register qubit indices it acts on.  The classical bit list of the
source triples is always empty and is omitted. -/
abbrev Instr := GateExpr × List ℕ

/-- Decomposition of a gate: the instruction list built by the method
named define of the corresponding class. -/
abbrev Defn := List Instr

/-- Classical basis state of the register: the Bool value of each qubit. -/
abbrev CState := ℕ → Bool

/-- Update of a classical state at one qubit. -/
def updf (s : CState) (q : ℕ) (v : Bool) : CState := fun j => if j = q then v else s j

/-- Classical action of the primitive permutation gates X and MCX on a
basis state.  The MCX gate with k controls flips its last operand
exactly when its first k operands are all one.  All other gates act as
the identity on this classical layer and are never used through it. -/
def applyPrim : GateExpr → List ℕ → CState → CState
  | GateExpr.XG, qs, s => updf s (qs.getD 0 0) (!(s (qs.getD 0 0)))
  | GateExpr.MCXG k, qs, s =>
      if (qs.take k).all s then updf s (qs.getD k 0) (!(s (qs.getD k 0))) else s
  | _, _, s => s

/-- Run a decomposition of primitive gates on a classical state. -/
def runPrim (d : Defn) (s : CState) : CState :=
  d.foldl (fun t ins => applyPrim ins.1 ins.2 t) s

/-- X gates placed on every control qubit whose required value is zero,
mirroring the loop over enumerate(self.qubit_values) in the method
named define of CustomMCXGate: the first argument is the index the
enumeration starts at. -/
def flipGates : ℕ → List Bool → Defn
  | _, [] => []
  | j0, v :: rest => (if v then [] else [(GateExpr.XG, [j0])]) ++ flipGates (j0 + 1) rest

/-- Decomposition built by CustomMCXGate: X gates on the zero-valued
controls, a bare MCX on all controls plus the target qubit k, and the
same X gates again.  The source guards the two X blocks by the Python
truthiness of self.qubit_values, which is false both for None and for
the empty list; flipGates applied to the empty list is empty, so one
match covers both falsy cases. -/
def CustomMCXGate_define (k : ℕ) (qubit_values : Option (List Bool)) : Defn :=
  (match qubit_values with
   | none => []
   | some vs => flipGates 0 vs)
  ++ [(GateExpr.MCXG k, List.range k ++ [k])]
  ++ (match qubit_values with
   | none => []
   | some vs => flipGates 0 vs)

/-- Mask of the qubits flipped by the X block of CustomMCXGate. -/
def flipMask : ℕ → List Bool → ℕ → Bool
  | _, [], _ => false
  | j0, v :: rest, q => if q = j0 then !v else flipMask (j0 + 1) rest q

/-- Boolean test that all controls have the values the polarity list
requires: control j must equal entry j, defaulting to one past the end
of the list. -/
def patMatch (vs : List Bool) (s : CState) : Bool :=
  (List.range vs.length).all (fun j => s j == vs.getD j true)

/-- Claim side description of the X block of CustomMCXGate: one X gate
on each control qubit whose required value is zero. -/
def xOnZeroControls (vs : List Bool) : Defn :=
  (List.range vs.length).filterMap
    (fun j => if vs.getD j true then none else some (GateExpr.XG, [j]))

/-!
Model of get_num_qubits.  The source computes int(np.log2(N - 0.5) + 1.0)
with float arithmetic; we model the computation with exact rational
arithmetic, Int.log being the floor of the base two logarithm.  For the
arguments the library feeds it (list lengths that are small powers of
two) the float computation returns the same value.
-/

/-- Model of get_num_qubits: the integer part of log2(N - 1/2) + 1. -/
def get_num_qubits (N : ℕ) : ℤ := Int.log 2 ((N : ℚ) - 1/2) + 1

/-- Number of control qubits BooleanOracleGate derives from the length
of its boolean vector. -/
def BooleanOracleGate_numCtrl (bv : List Bool) : ℕ :=
  (get_num_qubits bv.length).toNat

/-- Error message raised by the BooleanOracleGate constructor. -/
def mismatchMsg : String :=
  "Mismatch between size of given vector and expected vector size given number of qubits."

/-- Model of the BooleanOracleGate constructor: derive the qubit count
from the vector length, and fail with the size mismatch error when the
length is not two to that count, before any decomposition is built. -/
def BooleanOracleGate_init (bv : List Bool) : Except String (List Bool) :=
  if bv.length ≠ 2 ^ BooleanOracleGate_numCtrl bv then Except.error mismatchMsg
  else Except.ok bv

/-- Binary representation of idx on k bits with bit zero (the least
significant bit) first, as the source builds it by formatting idx as a
zero-padded k character binary string and reversing it; for k = 0 the
source short-circuits to the empty list. -/
def idxBits (k idx : ℕ) : List Bool :=
  (List.range k).map (fun j => idx.testBit j)

/-- Loop body of the method named define of BooleanOracleGate: for each
index whose entry is true, a CustomMCX over the whole register keyed to
the binary representation of the index.  The second argument is the
index the enumeration starts at. -/
def oracleGates (k : ℕ) : ℕ → List Bool → Defn
  | _, [] => []
  | idx, v :: rest =>
      (if v then [(GateExpr.CustomMCX k (some (idxBits k idx)), List.range (k + 1))] else [])
      ++ oracleGates k (idx + 1) rest

/-- Decomposition built by BooleanOracleGate. -/
def BooleanOracleGate_define (bv : List Bool) : Defn :=
  oracleGates (BooleanOracleGate_numCtrl bv) 0 bv

/-- Claim side description of the BooleanOracleGate decomposition: for
each index with a true entry, taken in increasing index order, one
polarity-controlled X over all k input qubits plus the output qubit,
keyed to the k bit binary representation of the index. -/
def oracleClaimed (k : ℕ) (bv : List Bool) : Defn :=
  ((List.range bv.length).filter (fun j => bv.getD j false)).map
    (fun j => (GateExpr.CustomMCX k (some (idxBits k j)), List.range (k + 1)))

/-- Rename the qubit operands of a decomposition along an operand list,
as qiskit does when a sub-instruction over the local register of a gate
is applied to the operands the outer instruction names. -/
def remapDefn (qs : List ℕ) (d : Defn) : Defn :=
  d.map (fun ins => (ins.1, ins.2.map (fun j => qs.getD j 0)))

/-- Classical action of one instruction of a BooleanOracleGate
decomposition: a CustomMCX sub-gate runs its own decomposition with its
local qubits renamed to the operands, any other gate acts as the
primitive it is. -/
def applyOracleInstr : GateExpr → List ℕ → CState → CState
  | GateExpr.CustomMCX k qv, qs, s => runPrim (remapDefn qs (CustomMCXGate_define k qv)) s
  | g, qs, s => applyPrim g qs s

/-- Run a BooleanOracleGate decomposition on a classical state. -/
def runOracle (d : Defn) (s : CState) : CState :=
  d.foldl (fun t ins => applyOracleInstr ins.1 ins.2 t) s

/-- Classical input state for the oracle correctness statement: the k
input qubits hold the binary representation of i, every other qubit
(the output qubit among them) holds zero. -/
def oracleInput (k i : ℕ) : CState :=
  fun q => if q < k then i.testBit q else false

/-- Accumulated effect of the oracle gate list on the output qubit when
the input register encodes i: one flip for each true entry whose index
equals i. -/
def oracleHits (i : ℕ) : ℕ → List Bool → Bool
  | _, [] => false
  | idx, v :: rest => xor (v && decide (i = idx)) (oracleHits i (idx + 1) rest)

/-!
QFTGate.  The source loops i over reversed(range(n)), appends a
Hadamard on qubit i and then, for j in range(i), a CU1 of angle
np.pi / 2.0 ** (i - j) on the pair (j, i); when do_swaps is set it ends
with swaps of qubit i and qubit n - 1 - i for i below n / 2.
-/

/-- Decomposition built by QFTGate. -/
def QFTGate_define (n : ℕ) (do_swaps : Bool) : Defn :=
  ((List.range n).reverse.flatMap (fun i =>
      (GateExpr.HG, [i])
        :: (List.range i).map (fun j => (GateExpr.CU1G 1 (i - j), [j, i]))))
  ++ (if do_swaps then
        (List.range (n / 2)).map (fun i => (GateExpr.SwapG, [i, n - 1 - i]))
      else [])

/-- Claim side description of the QFT work on one qubit i: a Hadamard,
then for each lower index qubit at distance d, taken here with d
descending as in the source, a controlled phase rotation of angle
pi / 2 ^ d between that qubit and qubit i. -/
def qftPerQubit (i : ℕ) : Defn :=
  (GateExpr.HG, [i])
    :: (List.range i).map (fun t => (GateExpr.CU1G 1 (i - t), [i - (i - t), i]))

/-- Claim side description of the QFT main loop: qubits are processed
from the most significant, qubit n - 1, down to the least significant,
qubit 0. -/
def qftMain : ℕ → Defn
  | 0 => []
  | i + 1 => qftPerQubit i ++ qftMain i

/-- Claim side description of the final swap block: qubit i is swapped
with qubit n - 1 - i for each i below n / 2, reversing the qubit
order. -/
def qftSwapBlock (n : ℕ) : Defn :=
  (List.range (n / 2)).map (fun i => (GateExpr.SwapG, [i, n - 1 - i]))

/-!
GroverDiffusionGate.  The constructor stores its five arguments; the
qiskit base class records num_qubits + 1 as the qubit count of the
gate, so in the method named define the register has num_qubits + 1
qubits, the last one auxiliary.
-/

structure GroverDiffusionGate where
  num_qubits : ℕ
  quantum_algorithm : GateExpr
  classical_boolean_oracle : List Bool
  oracle_qubits : List ℕ
  minus_identity : Bool

/-- Decomposition built by GroverDiffusionGate.  The register has
g.num_qubits + 1 qubits; the source addresses the auxiliary qubit as
qr[-1], the algorithm qubits as qr[:-1], the oracle operands as the
listed oracle qubits, and the inversion about the mean as a boolean
oracle over the whole register whose vector is [1] followed by
2 ^ num_qubits - 1 zeros.  The stored minus_identity field is not
read. -/
def GroverDiffusionGate_define (g : GroverDiffusionGate) : Defn :=
  [(GateExpr.HG, [g.num_qubits]),
   (GateExpr.ZG, [g.num_qubits]),
   (GateExpr.BooleanOracle g.classical_boolean_oracle, g.oracle_qubits ++ [g.num_qubits]),
   (GateExpr.invG g.quantum_algorithm, List.range g.num_qubits),
   (GateExpr.BooleanOracle (true :: List.replicate (2 ^ g.num_qubits - 1) false),
     List.range (g.num_qubits + 1)),
   (g.quantum_algorithm, List.range g.num_qubits),
   (GateExpr.ZG, [g.num_qubits]),
   (GateExpr.HG, [g.num_qubits])]

/-- Claim side description of the GroverDiffusionGate decomposition,
assembled from its six stages. -/
def groverClaimed (n : ℕ) (alg : GateExpr) (cbo : List Bool) (oq : List ℕ) : Defn :=
  [(GateExpr.HG, [n]), (GateExpr.ZG, [n])]
  ++ [(GateExpr.BooleanOracle cbo, oq ++ [n])]
  ++ [(GateExpr.invG alg, List.range n)]
  ++ [(GateExpr.BooleanOracle (true :: List.replicate (2 ^ n - 1) false), List.range (n + 1))]
  ++ [(alg, List.range n)]
  ++ [(GateExpr.ZG, [n]), (GateExpr.HG, [n])]

/-!
QPEGate.  For p phase qubits and a unitary gate over un qubits of its
own, the register has p + un qubits, phase qubits at the low indices;
the loop appends, for each phase qubit i, a Hadamard and then the
singly controlled unitary 2 ^ i times on qubit i plus the state qubits,
and it ends with the inverse QFT on the phase qubits.
-/

/-- Decomposition built by QPEGate, with the repeated appending of the
controlled unitary written as a map of a constant over range(2 ** i) as
in the source loop. -/
def QPEGate_define (p : ℕ) (u : GateExpr) (un : ℕ) : Defn :=
  ((List.range p).flatMap (fun i =>
      (GateExpr.HG, [i])
        :: (List.range (2 ^ i)).map (fun _ => (GateExpr.ctrlG u, i :: List.range' p un))))
  ++ [(GateExpr.invG (GateExpr.QFTG p true), List.range p)]

/-- Claim side description of the QPEGate decomposition: for each phase
qubit i, one Hadamard followed by exactly 2 ^ i consecutive copies of
the singly controlled unitary, whose operands are the control qubit i
followed by the state qubits p, p + 1, up to p + un - 1; then the
inverse QFT on the phase qubits only. -/
def qpeClaimed (p : ℕ) (u : GateExpr) (un : ℕ) : Defn :=
  ((List.range p).flatMap (fun i =>
      (GateExpr.HG, [i])
        :: List.replicate (2 ^ i) (GateExpr.ctrlG u, i :: (List.range un).map (p + ·))))
  ++ [(GateExpr.invG (GateExpr.QFTG p true), List.range p)]

/-!
Gate inversion.  The qiskit inverse of a defined gate reverses its
decomposition and inverts every sub-gate; of the gates the QFT
decomposition contains, H and Swap are their own inverses and the CU1
inverse negates the angle.
-/

/-- Inverse of a primitive gate expression: CU1 negates its angle, the
self inverse gates stay put. -/
def invertGate : GateExpr → GateExpr
  | GateExpr.CU1G num pw => GateExpr.CU1G (-num) pw
  | g => g

/-- Inverse of a decomposition: the reversed list of the inverted
instructions, as qiskit builds the definition of gate.inverse(). -/
def invertDefn (d : Defn) : Defn :=
  (d.map (fun ins => (invertGate ins.1, ins.2))).reverse


/-!
Exact state vector semantics for the QFT circuit.  An amplitude is a
formal integer combination of the unit phases exp(i pi g) with rational
g: the function gives the coefficient of each phase.  Multiplying by
exp(i pi e) shifts the coefficients; the Hadamard matrix is taken
unnormalized, as the integer matrix with rows (1, 1) and (1, -1), and a
counter in the state records how many factors of one over the square
root of two have been set aside: a state (v, h) stands for the complex
vector v divided by the square root of two to the h.  Basis vectors of
the register are the boolean assignments of qubit values, so a state
vector maps each assignment to its amplitude.  This captures the
unitaries of H, CU1 and Swap exactly for every angle.
-/

/-- Formal amplitude: the integer coefficient of each unit phase
exp(i pi g) over rational g. -/
abbrev Amp := ℚ → ℤ

/-- Amplitude of the integer m with phase one. -/
def ampOfInt (m : ℤ) : Amp := fun g => if g = 0 then m else 0

/-- Sum of amplitudes. -/
def ampAdd (a b : Amp) : Amp := fun g => a g + b g

/-- Difference of amplitudes. -/
def ampSub (a b : Amp) : Amp := fun g => a g - b g

/-- Scaling of an amplitude by an integer. -/
def ampScale (m : ℤ) (a : Amp) : Amp := fun g => m * a g

/-- Product of an amplitude with the phase exp(i pi e): the coefficient
of the phase g in the result is the coefficient of g - e in the
argument. -/
def ampPhase (e : ℚ) (a : Amp) : Amp := fun g => a (g - e)

/-- Angle of the gate CU1G num pw as a multiple of pi. -/
def cu1Angle (num : ℤ) (pw : ℕ) : ℚ := (num : ℚ) / 2 ^ pw

/-- State vector over the register: an amplitude for each classical
assignment of the qubits. -/
abbrev SVec := CState → Amp

/-- State of the scaled semantics: the state vector together with the
count of Hadamard normalization factors set aside; the represented
vector is the state vector divided by the square root of two to the
count. -/
abbrev UState := SVec × ℕ

/-- Hadamard on qubit q, unnormalized: the amplitude of an assignment
is the sum or the difference, according to the value of qubit q, of the
amplitudes of the two assignments agreeing with it away from q. -/
def applyHAt (q : ℕ) (v : SVec) : SVec :=
  fun f =>
    if f q then ampSub (v (updf f q false)) (v (updf f q true))
    else ampAdd (v (updf f q false)) (v (updf f q true))

/-- Controlled phase on qubits c and t: assignments with both qubits
one pick up the phase exp(i pi e). -/
def applyCU1At (e : ℚ) (c t : ℕ) (v : SVec) : SVec :=
  fun f => if f c && f t then ampPhase e (v f) else v f

/-- Assignment with the values of qubits a and b exchanged. -/
def swapFn (a b : ℕ) (f : CState) : CState :=
  fun x => if x = a then f b else if x = b then f a else f x

/-- Swap of qubits a and b: the basis permutation exchanging the two
qubit values. -/
def applySwapAt (a b : ℕ) (v : SVec) : SVec :=
  fun f => v (swapFn a b f)

/-- Action of one instruction on the state vector: the gates H, CU1 and
Swap that the QFT decomposition contains act as above, every other gate
is left as the identity by this semantics. -/
def applyV (ins : Instr) (v : SVec) : SVec :=
  match ins.1 with
  | GateExpr.HG => applyHAt (ins.2.getD 0 0) v
  | GateExpr.CU1G num pw => applyCU1At (cu1Angle num pw) (ins.2.getD 0 0) (ins.2.getD 1 0) v
  | GateExpr.SwapG => applySwapAt (ins.2.getD 0 0) (ins.2.getD 1 0) v
  | _ => v

/-- Number of Hadamard normalization factors an instruction sets
aside. -/
def hAdd (ins : Instr) : ℕ :=
  match ins.1 with
  | GateExpr.HG => 1
  | _ => 0

/-- Action of one instruction on a scaled state. -/
def applyUInstr (ins : Instr) (st : UState) : UState :=
  (applyV ins st.1, st.2 + hAdd ins)

/-- Run a decomposition on a scaled state. -/
def runU (d : Defn) (st : UState) : UState :=
  d.foldl (fun t ins => applyUInstr ins t) st

/-- Total number of Hadamard normalization factors a decomposition sets
aside. -/
def hCount : Defn → ℕ
  | [] => 0
  | ins :: d => hAdd ins + hCount d

/-!
Theorems.  First the helper lemmas, then one theorem per claim,
each preceded by a doc comment naming the claim.
-/

theorem updf_same (s : CState) (q : ℕ) (v : Bool) : updf s q v q = v := by
  simp [updf]

theorem updf_ne (s : CState) (q : ℕ) (v : Bool) (j : ℕ) (h : j ≠ q) :
    updf s q v j = s j := by
  simp [updf, h]

theorem updf_updf (s : CState) (q : ℕ) (a b : Bool) :
    updf (updf s q a) q b = updf s q b := by
  funext j
  by_cases h : j = q <;> simp [updf, h]

theorem updf_no_change (s : CState) (q : ℕ) : updf s q (s q) = s := by
  funext j
  by_cases h : j = q <;> simp [updf, h]

theorem runPrim_append (d1 d2 : Defn) (s : CState) :
    runPrim (d1 ++ d2) s = runPrim d2 (runPrim d1 s) :=
  List.foldl_append ..

theorem flipMask_lt (vs : List Bool) (j0 q : ℕ) (h : q < j0) :
    flipMask j0 vs q = false := by
  induction vs generalizing j0 with
  | nil => rfl
  | cons v rest ih =>
      have hne : q ≠ j0 := Nat.ne_of_lt h
      simp only [flipMask, if_neg hne]
      exact ih (j0 + 1) (Nat.lt_succ_of_lt h)

theorem flipMask_add (vs : List Bool) (j0 t : ℕ) :
    flipMask j0 vs (j0 + t) = !(vs.getD t true) := by
  induction vs generalizing j0 t with
  | nil => simp [flipMask]
  | cons v rest ih =>
      cases t with
      | zero => simp [flipMask]
      | succ t' =>
          have hne : j0 + (t' + 1) ≠ j0 := by omega
          have harith : j0 + (t' + 1) = (j0 + 1) + t' := by omega
          simp only [flipMask, if_neg hne]
          rw [harith, ih]
          simp

theorem flipMask_zero (vs : List Bool) (q : ℕ) :
    flipMask 0 vs q = !(vs.getD q true) := by
  have := flipMask_add vs 0 q
  simpa using this

theorem bool_xor_not (a b : Bool) : xor a (!b) = (a == b) := by
  cases a <;> cases b <;> rfl

theorem bool_xor_cancel (a b : Bool) : xor (xor a b) b = a := by
  cases a <;> cases b <;> rfl

theorem runPrim_flipGates (vs : List Bool) (j0 : ℕ) (s : CState) :
    runPrim (flipGates j0 vs) s = fun q => xor (s q) (flipMask j0 vs q) := by
  induction vs generalizing j0 s with
  | nil =>
      funext q
      simp [runPrim, flipGates, flipMask]
  | cons v rest ih =>
      cases v with
      | true =>
          have hfg : flipGates j0 (true :: rest) = flipGates (j0 + 1) rest := by
            simp [flipGates]
          rw [hfg, ih]
          funext q
          by_cases h : q = j0
          · subst h
            rw [flipMask_lt rest (q + 1) q (Nat.lt_succ_self q)]
            simp [flipMask]
          · simp [flipMask, h]
      | false =>
          have hfg : flipGates j0 (false :: rest)
              = [(GateExpr.XG, [j0])] ++ flipGates (j0 + 1) rest := by
            simp [flipGates]
          rw [hfg, runPrim_append, ih]
          funext q
          by_cases h : q = j0
          · subst h
            rw [flipMask_lt rest (q + 1) q (Nat.lt_succ_self q)]
            simp [runPrim, applyPrim, flipMask, updf]
          · simp [runPrim, applyPrim, flipMask, h, updf_ne _ _ _ _ h]

theorem mcx_take (k : ℕ) : (List.range k ++ [k]).take k = List.range k := by
  have h := List.take_left (List.range k) [k]
  rwa [List.length_range] at h

theorem mcx_getD (k : ℕ) : (List.range k ++ [k]).getD k 0 = k := by
  have h : (List.range k).length ≤ k := by simp
  rw [List.getD_append_right _ _ _ _ h]
  simp

theorem list_all_congr {α : Type} (l : List α) (f g : α → Bool)
    (h : ∀ a ∈ l, f a = g a) : l.all f = l.all g := by
  induction l with
  | nil => rfl
  | cons a t ih =>
      simp only [List.all_cons]
      rw [h a (List.mem_cons_self a t), ih (fun b hb => h b (List.mem_cons_of_mem a hb))]

theorem list_filterMap_congr {α β : Type} (l : List α) (f g : α → Option β)
    (h : ∀ a ∈ l, f a = g a) : l.filterMap f = l.filterMap g := by
  induction l with
  | nil => rfl
  | cons a t ih =>
      simp only [List.filterMap_cons]
      rw [h a (List.mem_cons_self a t), ih (fun b hb => h b (List.mem_cons_of_mem a hb))]


theorem runPrim_customMCX_some (k : ℕ) (vs : List Bool) (s : CState) (hlen : vs.length = k) :
    runPrim (CustomMCXGate_define k (some vs)) s
      = updf s k (xor (s k) (patMatch vs s)) := by
  have hgetDk : vs.getD k true = true := List.getD_eq_default _ _ (le_of_eq hlen)
  have hmk : flipMask 0 vs k = false := by rw [flipMask_zero, hgetDk]; rfl
  have hdef : CustomMCXGate_define k (some vs)
      = flipGates 0 vs ++ [(GateExpr.MCXG k, List.range k ++ [k])] ++ flipGates 0 vs := by
    simp only [CustomMCXGate_define]
  have hfire : (List.range k).all (fun q => xor (s q) (flipMask 0 vs q)) = patMatch vs s := by
    unfold patMatch
    rw [hlen]
    exact list_all_congr _ _ _ (fun j _ => by rw [flipMask_zero]; exact bool_xor_not _ _)
  rw [hdef, runPrim_append, runPrim_append]
  simp only [runPrim_flipGates]
  have hmid : runPrim [(GateExpr.MCXG k, List.range k ++ [k])]
        (fun q => xor (s q) (flipMask 0 vs q))
      = (if patMatch vs s
         then updf (fun q => xor (s q) (flipMask 0 vs q)) k
                (!(xor (s k) (flipMask 0 vs k)))
         else (fun q => xor (s q) (flipMask 0 vs q))) := by
    show applyPrim (GateExpr.MCXG k) (List.range k ++ [k])
          (fun q => xor (s q) (flipMask 0 vs q)) = _
    simp only [applyPrim, mcx_take, mcx_getD, hfire]
  rw [hmid]
  by_cases hpm : patMatch vs s = true
  · rw [if_pos hpm, hpm]
    funext q
    by_cases hq : q = k
    · subst hq
      rw [updf_same, updf_same, hmk]
      simp
    · rw [updf_ne _ _ _ _ hq, updf_ne _ _ _ _ hq]
      exact bool_xor_cancel _ _
  · have hpm' : patMatch vs s = false := Bool.eq_false_iff.mpr hpm
    rw [if_neg hpm, hpm']
    funext q
    by_cases hq : q = k
    · subst hq
      rw [updf_same, hmk]
      simp
    · rw [updf_ne _ _ _ _ hq]
      exact bool_xor_cancel _ _

theorem flipGates_filterMap (vs : List Bool) (j0 : ℕ) :
    flipGates j0 vs = (List.range vs.length).filterMap
      (fun t => if vs.getD t true then none else some (GateExpr.XG, [j0 + t])) := by
  induction vs generalizing j0 with
  | nil => rfl
  | cons v rest ih =>
      have hstep : flipGates j0 (v :: rest)
          = (if v then [] else [(GateExpr.XG, [j0])]) ++ flipGates (j0 + 1) rest := rfl
      have hrange : List.range (v :: rest).length
          = 0 :: (List.range rest.length).map Nat.succ := by
        rw [List.length_cons, List.range_succ_eq_map]
      have htail : (List.range rest.length).filterMap
            ((fun t => if (v :: rest).getD t true then none
                       else some (GateExpr.XG, [j0 + t])) ∘ Nat.succ)
          = flipGates (j0 + 1) rest := by
        rw [ih (j0 + 1)]
        apply list_filterMap_congr
        intro t _
        have harith : j0 + (t + 1) = (j0 + 1) + t := by omega
        simp only [Function.comp, List.getD_cons_succ]
        rw [harith]
      rw [hstep, hrange, List.filterMap_cons, List.filterMap_map, htail]
      cases v with
      | true => rfl
      | false => rfl

theorem flipGates_xOnZero (vs : List Bool) : flipGates 0 vs = xOnZeroControls vs := by
  rw [flipGates_filterMap]
  unfold xOnZeroControls
  apply list_filterMap_congr
  intro t _
  simp

theorem bool_xor_eq_not : ∀ a p : Bool, (xor a p = !a) ↔ p = true := by decide

/-- C2: the CustomMCXGate decomposition with a polarity vector is an X
gate on each control qubit whose required value is zero, one standard k
controlled X onto the target qubit, and the same X gates again; with no
polarity vector it is the bare multi controlled X; and on every
classical control assignment the target qubit is flipped exactly when
every control qubit matches the specified pattern. -/
theorem customMCX_spec (k : ℕ) (vs : List Bool) (s : CState) (hlen : vs.length = k) :
    CustomMCXGate_define k (some vs)
        = xOnZeroControls vs ++ [(GateExpr.MCXG k, List.range k ++ [k])]
            ++ xOnZeroControls vs
      ∧ CustomMCXGate_define k none = [(GateExpr.MCXG k, List.range k ++ [k])]
      ∧ (runPrim (CustomMCXGate_define k (some vs)) s k = !(s k)
          ↔ ∀ j, j < k → s j = vs.getD j true) := by
  refine ⟨?_, ?_, ?_⟩
  · rw [← flipGates_xOnZero]
    simp only [CustomMCXGate_define]
  · simp [CustomMCXGate_define]
  · rw [runPrim_customMCX_some k vs s hlen, updf_same, bool_xor_eq_not]
    simp [patMatch, hlen, List.all_eq_true]

/-- Witness for C2 at two controls with polarity [false, true] and the
classical state where exactly qubit one is set. -/
theorem customMCX_spec_witness :
    CustomMCXGate_define 2 (some [false, true])
        = xOnZeroControls [false, true] ++ [(GateExpr.MCXG 2, List.range 2 ++ [2])]
            ++ xOnZeroControls [false, true]
      ∧ CustomMCXGate_define 2 none = [(GateExpr.MCXG 2, List.range 2 ++ [2])]
      ∧ (runPrim (CustomMCXGate_define 2 (some [false, true])) (fun q => q == 1) 2 = true
          ↔ ∀ j, j < 2 → (j == 1) = [false, true].getD j true) :=
  customMCX_spec 2 [false, true] (fun q => q == 1) (by decide)

/-- C10: for every control count, polarity vector and classical state,
the CustomMCXGate decomposition leaves every qubit other than the
target k unchanged: the X gates flanking the multi controlled X cancel
in pairs and the multi controlled X touches only the target. -/
theorem customMCX_frame (k : ℕ) (qv : Option (List Bool)) (s : CState) (q : ℕ)
    (hq : q ≠ k) :
    runPrim (CustomMCXGate_define k qv) s q = s q := by
  cases qv with
  | none =>
      show applyPrim (GateExpr.MCXG k) (List.range k ++ [k]) s q = s q
      simp only [applyPrim, mcx_take, mcx_getD]
      by_cases hf : (List.range k).all s = true
      · rw [if_pos hf]
        exact updf_ne _ _ _ _ hq
      · rw [if_neg hf]
  | some vs =>
      have hdef : CustomMCXGate_define k (some vs)
          = flipGates 0 vs ++ [(GateExpr.MCXG k, List.range k ++ [k])] ++ flipGates 0 vs := by
        simp only [CustomMCXGate_define]
      rw [hdef, runPrim_append, runPrim_append]
      simp only [runPrim_flipGates]
      have hmid : ∀ t : CState,
          runPrim [(GateExpr.MCXG k, List.range k ++ [k])] t q = t q := by
        intro t
        show applyPrim (GateExpr.MCXG k) (List.range k ++ [k]) t q = t q
        simp only [applyPrim, mcx_take, mcx_getD]
        by_cases hf : (List.range k).all t = true
        · rw [if_pos hf]
          exact updf_ne _ _ _ _ hq
        · rw [if_neg hf]
      rw [hmid]
      exact bool_xor_cancel _ _

/-- Witness for C10 at one control with no polarity vector, the all
ones state and qubit zero. -/
theorem customMCX_frame_witness :
    runPrim (CustomMCXGate_define 1 none) (fun _ => true) 0 = true :=
  customMCX_frame 1 none (fun _ => true) 0 (by decide)

theorem get_num_qubits_pow (k : ℕ) : get_num_qubits (2 ^ k) = (k : ℤ) := by
  unfold get_num_qubits
  cases k with
  | zero =>
      have h1 : ((2 ^ 0 : ℕ) : ℚ) - 1/2 = (2 : ℚ) ^ (-1 : ℤ) := by norm_num
      have h2 : Int.log 2 (((2 ^ 0 : ℕ) : ℚ) - 1/2) = -1 := by
        rw [h1]
        exact Int.log_zpow (by norm_num) (-1)
      rw [h2]
      norm_num
  | succ m =>
      have hb : (1 : ℕ) < 2 := by norm_num
      have hone : (1 : ℚ) ≤ 2 ^ m := one_le_pow₀ (by norm_num)
      have hsucc : (2 : ℚ) ^ (m + 1) = 2 ^ m * 2 := pow_succ 2 m
      have hr_pos : (0 : ℚ) < ((2 ^ (m + 1) : ℕ) : ℚ) - 1/2 := by
        push_cast
        nlinarith
      have hlow : ((2 : ℚ) ^ (m : ℤ)) ≤ ((2 ^ (m + 1) : ℕ) : ℚ) - 1/2 := by
        push_cast
        rw [zpow_natCast]
        nlinarith
      have hup : ((2 ^ (m + 1) : ℕ) : ℚ) - 1/2 < (2 : ℚ) ^ ((m : ℤ) + 1) := by
        have hexp : ((m : ℤ) + 1) = ((m + 1 : ℕ) : ℤ) := by push_cast; ring
        rw [hexp, zpow_natCast]
        push_cast
        linarith
      have hlog_ge : (m : ℤ) ≤ Int.log 2 (((2 ^ (m + 1) : ℕ) : ℚ) - 1/2) := by
        calc (m : ℤ) = Int.log 2 ((2 : ℚ) ^ (m : ℤ)) := (Int.log_zpow hb m).symm
          _ ≤ Int.log 2 (((2 ^ (m + 1) : ℕ) : ℚ) - 1/2) :=
              Int.log_mono_right (zpow_pos (by norm_num) _) hlow
      have hlog_lt : Int.log 2 (((2 ^ (m + 1) : ℕ) : ℚ) - 1/2) < (m : ℤ) + 1 :=
        (Int.lt_zpow_iff_log_lt hb hr_pos).mp hup
      omega

theorem numCtrl_pow (k : ℕ) (bv : List Bool) (h : bv.length = 2 ^ k) :
    BooleanOracleGate_numCtrl bv = k := by
  unfold BooleanOracleGate_numCtrl
  rw [h, get_num_qubits_pow]
  simp

theorem init_ok_of_pow (k : ℕ) (bv : List Bool) (h : bv.length = 2 ^ k) :
    BooleanOracleGate_init bv = Except.ok bv := by
  simp [BooleanOracleGate_init, numCtrl_pow k bv h, h]

theorem three_ne_two_pow : ∀ k : ℕ, (3 : ℕ) ≠ 2 ^ k := by
  intro k
  match k with
  | 0 => decide
  | 1 => decide
  | (n + 2) =>
      have h4 : 4 ≤ 2 ^ (n + 2) := by
        calc (4 : ℕ) = 2 ^ 2 := by norm_num
          _ ≤ 2 ^ (n + 2) := Nat.pow_le_pow_right (by norm_num) (by omega)
      omega

/-- C8: for every vector length of the form 2 ^ k the derived qubit
count int(log2(N - 0.5) + 1), modelled with exact arithmetic, is
exactly k, so the length equals two to the derived count and the
BooleanOracleGate length check accepts the vector. -/
theorem claim_get_num_qubits (k : ℕ) (bv : List Bool) (h : bv.length = 2 ^ k) :
    get_num_qubits (2 ^ k) = (k : ℤ) ∧ BooleanOracleGate_init bv = Except.ok bv :=
  ⟨get_num_qubits_pow k, init_ok_of_pow k bv h⟩

/-- Witness for C8 at k = 3 with the all true vector of length 8. -/
theorem claim_get_num_qubits_witness :
    get_num_qubits (2 ^ 3) = (3 : ℤ)
      ∧ BooleanOracleGate_init (List.replicate 8 true)
          = Except.ok (List.replicate 8 true) :=
  claim_get_num_qubits 3 (List.replicate 8 true) (by decide)

/-- C3: the BooleanOracleGate constructor succeeds exactly on vectors
whose length is a power of two, and fails with the size mismatch error,
before any decomposition is built, on every vector whose length is not
a power of two. -/
theorem claim_oracle_init (bv : List Bool) :
    (BooleanOracleGate_init bv = Except.ok bv ↔ ∃ k, bv.length = 2 ^ k)
      ∧ ((∀ k, bv.length ≠ 2 ^ k)
          → BooleanOracleGate_init bv = Except.error mismatchMsg) := by
  constructor
  · constructor
    · intro h
      by_cases hc : bv.length ≠ 2 ^ BooleanOracleGate_numCtrl bv
      · simp only [BooleanOracleGate_init, if_pos hc] at h
        exact Except.noConfusion h
      · push_neg at hc
        exact ⟨_, hc⟩
    · rintro ⟨k, hk⟩
      exact init_ok_of_pow k bv hk
  · intro hall
    have hc : bv.length ≠ 2 ^ BooleanOracleGate_numCtrl bv := hall _
    simp only [BooleanOracleGate_init, if_pos hc]

/-- Witness for C3 at the length three vector of the spec example. -/
theorem claim_oracle_init_witness :
    BooleanOracleGate_init [true, true, true] = Except.error mismatchMsg :=
  (claim_oracle_init [true, true, true]).2 (fun k => three_ne_two_pow k)

theorem list_filter_congr {α : Type} (l : List α) (f g : α → Bool)
    (h : ∀ a ∈ l, f a = g a) : l.filter f = l.filter g := by
  induction l with
  | nil => rfl
  | cons a t ih =>
      simp only [List.filter_cons]
      rw [h a (List.mem_cons_self a t), ih (fun b hb => h b (List.mem_cons_of_mem a hb))]

theorem list_map_congr {α β : Type} (l : List α) (f g : α → β)
    (h : ∀ a ∈ l, f a = g a) : l.map f = l.map g := by
  induction l with
  | nil => rfl
  | cons a t ih =>
      simp only [List.map_cons]
      rw [h a (List.mem_cons_self a t), ih (fun b hb => h b (List.mem_cons_of_mem a hb))]

theorem getD_range (m j : ℕ) (h : j < m) : (List.range m).getD j 0 = j := by
  simp [List.getD, List.getElem?_range h]

theorem bool_eq_of_iff (a b : Bool) (h : a = true ↔ b = true) : a = b := by
  cases a <;> cases b <;> simp_all

theorem oracleGates_general (k : ℕ) (bv : List Bool) : ∀ idx : ℕ,
    oracleGates k idx bv
      = ((List.range bv.length).filter (fun t => bv.getD t false)).map
          (fun t => (GateExpr.CustomMCX k (some (idxBits k (idx + t))), List.range (k + 1))) := by
  induction bv with
  | nil => intro idx; rfl
  | cons v rest ih =>
      intro idx
      have hstep : oracleGates k idx (v :: rest)
          = (if v then [(GateExpr.CustomMCX k (some (idxBits k idx)), List.range (k + 1))]
             else [])
            ++ oracleGates k (idx + 1) rest := rfl
      have hrange : List.range (v :: rest).length
          = 0 :: (List.range rest.length).map Nat.succ := by
        rw [List.length_cons, List.range_succ_eq_map]
      have htailf : ((List.range rest.length).map Nat.succ).filter
            (fun t => (v :: rest).getD t false)
          = ((List.range rest.length).filter (fun t => rest.getD t false)).map Nat.succ := by
        rw [List.filter_map]
        have : (fun t => (v :: rest).getD t false) ∘ Nat.succ
            = (fun t => rest.getD t false) := by
          funext t
          simp [Function.comp, List.getD_cons_succ]
        rw [this]
      have htail : (((List.range rest.length).filter (fun t => rest.getD t false)).map
              Nat.succ).map
            (fun t => (GateExpr.CustomMCX k (some (idxBits k (idx + t))), List.range (k + 1)))
          = oracleGates k (idx + 1) rest := by
        rw [List.map_map, ih (idx + 1)]
        apply list_map_congr
        intro t _
        have harith : idx + (t + 1) = (idx + 1) + t := by omega
        simp only [Function.comp]
        rw [Nat.succ_eq_add_one, harith]
      cases v with
      | true =>
          have hfilter : (0 :: (List.range rest.length).map Nat.succ).filter
                (fun t => (true :: rest).getD t false)
              = 0 :: ((List.range rest.length).map Nat.succ).filter
                  (fun t => (true :: rest).getD t false) := by
            simp [List.filter_cons]
          rw [hstep, hrange, hfilter, htailf, List.map_cons, htail]
          simp
      | false =>
          have hfilter : (0 :: (List.range rest.length).map Nat.succ).filter
                (fun t => (false :: rest).getD t false)
              = ((List.range rest.length).map Nat.succ).filter
                  (fun t => (false :: rest).getD t false) := by
            simp [List.filter_cons]
          rw [hstep, hrange, hfilter, htailf, htail]
          simp

theorem oracleGates_claimed (k : ℕ) (bv : List Bool) :
    oracleGates k 0 bv = oracleClaimed k bv := by
  rw [oracleGates_general k bv 0]
  unfold oracleClaimed
  apply list_map_congr
  intro t _
  rw [Nat.zero_add]

theorem flipGates_bound (vs : List Bool) : ∀ (j0 : ℕ), ∀ ins ∈ flipGates j0 vs, ∀ q ∈ ins.2,
    q < j0 + vs.length := by
  induction vs with
  | nil =>
      intro j0 ins hins
      simp [flipGates] at hins
  | cons v rest ih =>
      intro j0 ins hins q hq
      have hshape : flipGates j0 (v :: rest)
          = (if v then ([] : Defn) else [(GateExpr.XG, [j0])]) ++ flipGates (j0 + 1) rest := rfl
      rw [hshape] at hins
      have hlen : (v :: rest).length = rest.length + 1 := by simp
      rcases List.mem_append.mp hins with h1 | h2
      · cases v with
        | true => simp at h1
        | false =>
            simp at h1
            subst h1
            simp at hq
            omega
      · have := ih (j0 + 1) ins h2 q hq
        omega

theorem customMCX_some_bound (k : ℕ) (vs : List Bool) (hlen : vs.length ≤ k) :
    ∀ ins ∈ CustomMCXGate_define k (some vs), ∀ q ∈ ins.2, q < k + 1 := by
  intro ins hins q hq
  have hdef : CustomMCXGate_define k (some vs)
      = flipGates 0 vs ++ [(GateExpr.MCXG k, List.range k ++ [k])] ++ flipGates 0 vs := by
    simp only [CustomMCXGate_define]
  rw [hdef] at hins
  rcases List.mem_append.mp hins with h12 | h3
  · rcases List.mem_append.mp h12 with h1 | h2
    · have := flipGates_bound vs 0 ins h1 q hq
      omega
    · simp at h2
      subst h2
      simp at hq
      rcases hq with hq1 | hq2
      · omega
      · omega
  · have := flipGates_bound vs 0 ins h3 q hq
    omega

theorem remapDefn_range_id (m : ℕ) (d : Defn) (h : ∀ ins ∈ d, ∀ q ∈ ins.2, q < m) :
    remapDefn (List.range m) d = d := by
  unfold remapDefn
  have hins : ∀ ins ∈ d, (ins.1, ins.2.map (fun j => (List.range m).getD j 0)) = ins := by
    intro ins hmem
    have h2 : ins.2.map (fun j => (List.range m).getD j 0) = ins.2 := by
      have hcg := list_map_congr ins.2 (fun j => (List.range m).getD j 0) id
        (fun q hq => getD_range m q (h ins hmem q hq))
      rw [hcg, List.map_id]
    rw [h2]
  rw [list_map_congr d _ id hins, List.map_id]

theorem idxBits_length (k idx : ℕ) : (idxBits k idx).length = k := by
  simp [idxBits]

theorem idxBits_getD (k idx q : ℕ) (hq : q < k) :
    (idxBits k idx).getD q true = idx.testBit q := by
  simp [idxBits, List.getD, List.getElem?_map, List.getElem?_range hq]

theorem patMatch_idxBits (k i j : ℕ) (hi : i < 2 ^ k) (hj : j < 2 ^ k) (s : CState)
    (hs : ∀ q, q < k → s q = i.testBit q) :
    patMatch (idxBits k j) s = decide (i = j) := by
  apply bool_eq_of_iff
  unfold patMatch
  rw [idxBits_length]
  simp only [List.all_eq_true, List.mem_range, decide_eq_true_eq, beq_iff_eq]
  constructor
  · intro h
    apply Nat.eq_of_testBit_eq
    intro q
    by_cases hq : q < k
    · have h1 := h q hq
      rw [hs q hq, idxBits_getD k j q hq] at h1
      exact h1
    · have hk2q : 2 ^ k ≤ 2 ^ q := Nat.pow_le_pow_right (by norm_num) (by omega)
      rw [Nat.testBit_lt_two_pow (lt_of_lt_of_le hi hk2q),
        Nat.testBit_lt_two_pow (lt_of_lt_of_le hj hk2q)]
  · intro h q hq
    subst h
    rw [hs q hq, idxBits_getD k i q hq]

theorem oracleHits_getD (i : ℕ) : ∀ (bv : List Bool) (idx : ℕ),
    oracleHits i idx bv
      = if idx ≤ i ∧ i < idx + bv.length then bv.getD (i - idx) false else false := by
  intro bv
  induction bv with
  | nil =>
      intro idx
      have hcond : ¬(idx ≤ i ∧ i < idx + ([] : List Bool).length) := by
        simp
      simp [oracleHits, hcond]
  | cons v rest ih =>
      intro idx
      have hlen : (v :: rest).length = rest.length + 1 := by simp
      rw [show oracleHits i idx (v :: rest)
            = xor (v && decide (i = idx)) (oracleHits i (idx + 1) rest) from rfl,
        ih (idx + 1)]
      by_cases hcase : i = idx
      · subst hcase
        have hc1 : ¬(i + 1 ≤ i ∧ i < (i + 1) + rest.length) := by omega
        have hc2 : i ≤ i ∧ i < i + (v :: rest).length := by omega
        rw [if_neg hc1, if_pos hc2]
        simp
      · have hd : decide (i = idx) = false := decide_eq_false hcase
        rw [hd]
        simp only [Bool.and_false, Bool.false_xor]
        by_cases hc : (idx + 1) ≤ i ∧ i < (idx + 1) + rest.length
        · have hc' : idx ≤ i ∧ i < idx + (v :: rest).length := by omega
          rw [if_pos hc, if_pos hc']
          have hsub : i - idx = (i - (idx + 1)) + 1 := by omega
          rw [hsub, List.getD_cons_succ]
        · have hc' : ¬(idx ≤ i ∧ i < idx + (v :: rest).length) := by omega
          rw [if_neg hc, if_neg hc']

theorem runOracle_oracleGates (k i : ℕ) (hi : i < 2 ^ k) (bv : List Bool) :
    ∀ (idx : ℕ) (s : CState),
      idx + bv.length ≤ 2 ^ k →
      (∀ q, q < k → s q = i.testBit q) →
      runOracle (oracleGates k idx bv) s = updf s k (xor (s k) (oracleHits i idx bv)) := by
  induction bv with
  | nil =>
      intro idx s hb hs
      show s = updf s k (xor (s k) false)
      rw [Bool.xor_false, updf_no_change]
  | cons v rest ih =>
      intro idx s hb hs
      have hlen : (v :: rest).length = rest.length + 1 := by simp
      have hidx : idx < 2 ^ k := by omega
      cases v with
      | false =>
          have hstep : oracleGates k idx (false :: rest) = oracleGates k (idx + 1) rest := rfl
          have hhits : oracleHits i idx (false :: rest) = oracleHits i (idx + 1) rest := by
            simp [oracleHits]
          rw [hstep, hhits]
          exact ih (idx + 1) s (by omega) hs
      | true =>
          have happ : applyOracleInstr (GateExpr.CustomMCX k (some (idxBits k idx)))
                (List.range (k + 1)) s
              = updf s k (xor (s k) (decide (i = idx))) := by
            show runPrim (remapDefn (List.range (k + 1))
                  (CustomMCXGate_define k (some (idxBits k idx)))) s = _
            rw [remapDefn_range_id (k + 1) _
                (customMCX_some_bound k (idxBits k idx) (le_of_eq (idxBits_length k idx))),
              runPrim_customMCX_some k (idxBits k idx) s (idxBits_length k idx),
              patMatch_idxBits k i idx hi hidx s hs]
          have hrun : runOracle (oracleGates k idx (true :: rest)) s
              = runOracle (oracleGates k (idx + 1) rest)
                  (updf s k (xor (s k) (decide (i = idx)))) := by
            show runOracle (oracleGates k (idx + 1) rest)
                (applyOracleInstr (GateExpr.CustomMCX k (some (idxBits k idx)))
                  (List.range (k + 1)) s) = _
            rw [happ]
          rw [hrun]
          have hs' : ∀ q, q < k →
              (updf s k (xor (s k) (decide (i = idx)))) q = i.testBit q := by
            intro q hq
            rw [updf_ne _ _ _ _ (Nat.ne_of_lt hq)]
            exact hs q hq
          rw [ih (idx + 1) _ (by omega) hs', updf_updf, updf_same]
          have hhits : oracleHits i idx (true :: rest)
              = xor (decide (i = idx)) (oracleHits i (idx + 1) rest) := by
            simp [oracleHits]
          rw [hhits, Bool.xor_assoc]

/-- C1: for every boolean vector of length 2 ^ k the BooleanOracleGate
decomposition is one polarity controlled X per true entry, taken in
increasing index order, over all k input qubits plus the output qubit,
keyed to the k bit binary representation of the index with bit zero,
the least significant, first; and when the input qubits encode i and
the output qubit is zero, the output qubit ends holding entry i of the
vector. -/
theorem boolean_oracle_spec (k : ℕ) (bv : List Bool) (hlen : bv.length = 2 ^ k)
    (i : ℕ) (hi : i < 2 ^ k) :
    BooleanOracleGate_define bv = oracleClaimed k bv
      ∧ runOracle (BooleanOracleGate_define bv) (oracleInput k i) k = bv.getD i false := by
  have hk : BooleanOracleGate_numCtrl bv = k := numCtrl_pow k bv hlen
  constructor
  · unfold BooleanOracleGate_define
    rw [hk]
    exact oracleGates_claimed k bv
  · unfold BooleanOracleGate_define
    rw [hk]
    have hsin : ∀ q, q < k → oracleInput k i q = i.testBit q := by
      intro q hq
      simp [oracleInput, hq]
    rw [runOracle_oracleGates k i hi bv 0 (oracleInput k i) (by omega) hsin, updf_same]
    have hk0 : oracleInput k i k = false := by simp [oracleInput]
    rw [hk0, Bool.false_xor, oracleHits_getD i bv 0]
    have hcond : 0 ≤ i ∧ i < 0 + bv.length := ⟨Nat.zero_le i, by omega⟩
    rw [if_pos hcond]
    simp

/-- Witness for C1 at one input qubit, the vector [false, true] and
input state one. -/
theorem boolean_oracle_spec_witness :
    BooleanOracleGate_define [false, true] = oracleClaimed 1 [false, true]
      ∧ runOracle (BooleanOracleGate_define [false, true]) (oracleInput 1 1) 1
          = [false, true].getD 1 false :=
  boolean_oracle_spec 1 [false, true] (by decide) 1 (by decide)

theorem list_flatMap_congr {α β : Type} (l : List α) (f g : α → List β)
    (h : ∀ a ∈ l, f a = g a) : l.flatMap f = l.flatMap g := by
  induction l with
  | nil => rfl
  | cons a t ih =>
      simp only [List.flatMap_cons]
      rw [h a (List.mem_cons_self a t), ih (fun b hb => h b (List.mem_cons_of_mem a hb))]

theorem qftPerQubit_eq (i : ℕ) :
    qftPerQubit i
      = (GateExpr.HG, [i])
          :: (List.range i).map (fun j => (GateExpr.CU1G 1 (i - j), [j, i])) := by
  unfold qftPerQubit
  congr 1
  apply list_map_congr
  intro t ht
  have ht' : t < i := List.mem_range.mp ht
  have hsub : i - (i - t) = t := by omega
  rw [hsub]

theorem qft_flatMap_eq (n : ℕ) :
    (List.range n).reverse.flatMap (fun i =>
        (GateExpr.HG, [i])
          :: (List.range i).map (fun j => (GateExpr.CU1G 1 (i - j), [j, i])))
      = qftMain n := by
  induction n with
  | zero => rfl
  | succ m ih =>
      have h1 : (List.range (m + 1)).reverse = m :: (List.range m).reverse := by
        rw [List.range_succ, List.reverse_append]
        rfl
      rw [h1, List.flatMap_cons, ih]
      show _ ++ _ = qftPerQubit m ++ qftMain m
      rw [qftPerQubit_eq]

/-- C6: the QFTGate decomposition processes qubits from most to least
significant, a Hadamard on each qubit followed by one controlled phase
rotation of angle pi over two to the distance with each lower index
qubit, and when do_swaps is set it ends with the swap block reversing
the qubit order. -/
theorem qft_define_spec (n : ℕ) (do_swaps : Bool) :
    QFTGate_define n do_swaps
      = qftMain n ++ (if do_swaps then qftSwapBlock n else []) := by
  unfold QFTGate_define qftSwapBlock
  rw [qft_flatMap_eq]

/-- C4: the QPEGate decomposition is, for each phase qubit i in order,
one Hadamard on qubit i followed by exactly 2 ^ i consecutive copies of
the singly controlled unitary on qubit i plus the state qubits, the
phase qubits at the low indices and the state qubits at the high ones,
ending with the inverse QFT on the phase qubits only. -/
theorem qpe_define_spec (p : ℕ) (u : GateExpr) (un : ℕ) :
    QPEGate_define p u un = qpeClaimed p u un := by
  unfold QPEGate_define qpeClaimed
  congr 1
  apply list_flatMap_congr
  intro i _
  congr 1
  rw [List.range'_eq_map_range]
  rw [show (fun (_ : ℕ) => (GateExpr.ctrlG u, i :: (List.range un).map (p + ·)))
        = Function.const ℕ (GateExpr.ctrlG u, i :: (List.range un).map (p + ·)) from rfl,
    List.map_const, List.length_range]

/-- C5: the GroverDiffusionGate decomposition is exactly Hadamard and Z
on the auxiliary qubit, the boolean oracle of the supplied vector on
the oracle qubits plus the auxiliary target, the inverse of the
supplied algorithm on the non auxiliary qubits, the boolean oracle
marking only the all zero state on the whole register, the forward
algorithm, and Z then Hadamard on the auxiliary qubit. -/
theorem grover_define_spec (n : ℕ) (alg : GateExpr) (cbo : List Bool) (oq : List ℕ)
    (mi : Bool) :
    GroverDiffusionGate_define ⟨n, alg, cbo, oq, mi⟩ = groverClaimed n alg cbo oq := rfl

/-- C9: the GroverDiffusionGate decomposition does not depend on the
stored minus_identity flag, which the method named define never
reads. -/
theorem grover_minus_identity_unused (n : ℕ) (alg : GateExpr) (cbo : List Bool)
    (oq : List ℕ) :
    GroverDiffusionGate_define ⟨n, alg, cbo, oq, true⟩
      = GroverDiffusionGate_define ⟨n, alg, cbo, oq, false⟩ := rfl

theorem ampAdd_scale (c : ℤ) (a b : Amp) :
    ampAdd (ampScale c a) (ampScale c b) = ampScale c (ampAdd a b) := by
  funext g
  simp [ampAdd, ampScale]
  ring

theorem ampSub_scale (c : ℤ) (a b : Amp) :
    ampSub (ampScale c a) (ampScale c b) = ampScale c (ampSub a b) := by
  funext g
  simp [ampSub, ampScale]
  ring

theorem ampPhase_scale (e : ℚ) (c : ℤ) (a : Amp) :
    ampPhase e (ampScale c a) = ampScale c (ampPhase e a) := by
  funext g
  simp [ampPhase, ampScale]

theorem ampScale_one (a : Amp) : ampScale 1 a = a := by
  funext g
  simp [ampScale]

theorem ampScale_scale (c d : ℤ) (a : Amp) :
    ampScale c (ampScale d a) = ampScale (c * d) a := by
  funext g
  simp [ampScale]
  ring

theorem ampSub_of_add_sub (a b : Amp) :
    ampSub (ampAdd a b) (ampSub a b) = ampScale 2 b := by
  funext g
  simp [ampAdd, ampSub, ampScale]
  ring

theorem ampAdd_of_add_sub (a b : Amp) :
    ampAdd (ampAdd a b) (ampSub a b) = ampScale 2 a := by
  funext g
  simp [ampAdd, ampSub, ampScale]
  ring

theorem ampPhase_phase (e1 e2 : ℚ) (a : Amp) :
    ampPhase e1 (ampPhase e2 a) = ampPhase (e1 + e2) a := by
  funext g
  simp [ampPhase]
  ring_nf

theorem ampPhase_zero (a : Amp) : ampPhase 0 a = a := by
  funext g
  simp [ampPhase]

theorem swapFn_at_a (a b : ℕ) (f : CState) : swapFn a b f a = f b := by
  simp [swapFn]

theorem swapFn_at_b (a b : ℕ) (f : CState) : swapFn a b f b = f a := by
  by_cases h : b = a
  · subst h
    simp [swapFn]
  · simp [swapFn, h]

theorem swapFn_other (a b x : ℕ) (f : CState) (ha : x ≠ a) (hb : x ≠ b) :
    swapFn a b f x = f x := by
  simp [swapFn, ha, hb]

theorem swapFn_invol (a b : ℕ) (f : CState) : swapFn a b (swapFn a b f) = f := by
  funext x
  by_cases hxa : x = a
  · subst hxa
    rw [swapFn_at_a, swapFn_at_b]
  · by_cases hxb : x = b
    · subst hxb
      rw [swapFn_at_b, swapFn_at_a]
    · rw [swapFn_other a b x _ hxa hxb, swapFn_other a b x f hxa hxb]

theorem applyHAt_twice (q : ℕ) (v : SVec) :
    applyHAt q (applyHAt q v) = fun f => ampScale 2 (v f) := by
  funext f
  have h0 : updf f q false q = false := updf_same f q false
  have h1 : updf f q true q = true := updf_same f q true
  have hinner0 : applyHAt q v (updf f q false)
      = ampAdd (v (updf f q false)) (v (updf f q true)) := by
    have hr : applyHAt q v (updf f q false)
        = if updf f q false q
          then ampSub (v (updf (updf f q false) q false)) (v (updf (updf f q false) q true))
          else ampAdd (v (updf (updf f q false) q false)) (v (updf (updf f q false) q true)) :=
      rfl
    rw [hr, h0]
    simp [updf_updf]
  have hinner1 : applyHAt q v (updf f q true)
      = ampSub (v (updf f q false)) (v (updf f q true)) := by
    have hr : applyHAt q v (updf f q true)
        = if updf f q true q
          then ampSub (v (updf (updf f q true) q false)) (v (updf (updf f q true) q true))
          else ampAdd (v (updf (updf f q true) q false)) (v (updf (updf f q true) q true)) :=
      rfl
    rw [hr, h1]
    simp [updf_updf]
  have houter : applyHAt q (applyHAt q v) f
      = if f q
        then ampSub (applyHAt q v (updf f q false)) (applyHAt q v (updf f q true))
        else ampAdd (applyHAt q v (updf f q false)) (applyHAt q v (updf f q true)) := rfl
  show applyHAt q (applyHAt q v) f = ampScale 2 (v f)
  rw [houter, hinner0, hinner1]
  cases hfq : f q with
  | true =>
      rw [if_pos rfl, ampSub_of_add_sub]
      have hcol : updf f q true = f := by
        rw [← hfq]
        exact updf_no_change f q
      rw [hcol]
  | false =>
      rw [if_neg Bool.false_ne_true, ampAdd_of_add_sub]
      have hcol : updf f q false = f := by
        rw [← hfq]
        exact updf_no_change f q
      rw [hcol]

theorem applyCU1At_cancel (e : ℚ) (c t : ℕ) (v : SVec) :
    applyCU1At (-e) c t (applyCU1At e c t v) = v := by
  funext f
  unfold applyCU1At
  cases hc : f c && f t with
  | true =>
      simp only [if_true, ampPhase_phase]
      rw [show (-e + e : ℚ) = 0 by ring, ampPhase_zero]
  | false => simp only [Bool.false_eq_true, if_false]

theorem applySwapAt_cancel (a b : ℕ) (v : SVec) :
    applySwapAt a b (applySwapAt a b v) = v := by
  funext f
  unfold applySwapAt
  rw [swapFn_invol]

theorem applyHAt_scale (q : ℕ) (c : ℤ) (v : SVec) :
    applyHAt q (fun f => ampScale c (v f)) = fun f => ampScale c (applyHAt q v f) := by
  funext f
  show (if f q
        then ampSub (ampScale c (v (updf f q false))) (ampScale c (v (updf f q true)))
        else ampAdd (ampScale c (v (updf f q false))) (ampScale c (v (updf f q true))))
      = ampScale c (if f q
        then ampSub (v (updf f q false)) (v (updf f q true))
        else ampAdd (v (updf f q false)) (v (updf f q true)))
  cases hfq : f q with
  | true =>
      rw [if_pos rfl, if_pos rfl]
      exact ampSub_scale c _ _
  | false =>
      rw [if_neg Bool.false_ne_true, if_neg Bool.false_ne_true]
      exact ampAdd_scale c _ _

theorem applyCU1At_scale (e : ℚ) (ca t : ℕ) (c : ℤ) (v : SVec) :
    applyCU1At e ca t (fun f => ampScale c (v f))
      = fun f => ampScale c (applyCU1At e ca t v f) := by
  funext f
  show (if f ca && f t then ampPhase e (ampScale c (v f)) else ampScale c (v f))
      = ampScale c (if f ca && f t then ampPhase e (v f) else v f)
  cases hc : f ca && f t with
  | true =>
      rw [if_pos rfl, if_pos rfl]
      exact ampPhase_scale e c _
  | false =>
      rw [if_neg Bool.false_ne_true, if_neg Bool.false_ne_true]

theorem applyV_scale (ins : Instr) (c : ℤ) (v : SVec) :
    applyV ins (fun f => ampScale c (v f)) = fun f => ampScale c (applyV ins v f) := by
  obtain ⟨g, qs⟩ := ins
  cases g with
  | HG => exact applyHAt_scale _ c v
  | CU1G num pw => exact applyCU1At_scale _ _ _ c v
  | SwapG => rfl
  | XG => rfl
  | ZG => rfl
  | MCXG k => rfl
  | CustomMCX k qv => rfl
  | BooleanOracle bv => rfl
  | QFTG n ds => rfl
  | invG g => rfl
  | ctrlG g => rfl

theorem applyV_cancel (ins : Instr) (v : SVec) :
    applyV (invertGate ins.1, ins.2) (applyV ins v)
      = fun f => ampScale ((2 : ℤ) ^ hAdd ins) (v f) := by
  obtain ⟨g, qs⟩ := ins
  cases g with
  | HG =>
      show applyHAt (qs.getD 0 0) (applyHAt (qs.getD 0 0) v) = _
      rw [applyHAt_twice]
      funext f
      simp [hAdd, ampScale_one]
  | CU1G num pw =>
      show applyCU1At (cu1Angle (-num) pw) (qs.getD 0 0) (qs.getD 1 0)
            (applyCU1At (cu1Angle num pw) (qs.getD 0 0) (qs.getD 1 0) v) = _
      have hang : cu1Angle (-num) pw = -(cu1Angle num pw) := by
        unfold cu1Angle
        push_cast
        ring
      rw [hang, applyCU1At_cancel]
      funext f
      simp [hAdd, ampScale_one]
  | SwapG =>
      show applySwapAt (qs.getD 0 0) (qs.getD 1 0)
            (applySwapAt (qs.getD 0 0) (qs.getD 1 0) v) = _
      rw [applySwapAt_cancel]
      funext f
      simp [hAdd, ampScale_one]
  | XG =>
      funext f
      simp [applyV, invertGate, hAdd, ampScale_one]
  | ZG =>
      funext f
      simp [applyV, invertGate, hAdd, ampScale_one]
  | MCXG k =>
      funext f
      simp [applyV, invertGate, hAdd, ampScale_one]
  | CustomMCX k qv =>
      funext f
      simp [applyV, invertGate, hAdd, ampScale_one]
  | BooleanOracle bv =>
      funext f
      simp [applyV, invertGate, hAdd, ampScale_one]
  | QFTG n ds =>
      funext f
      simp [applyV, invertGate, hAdd, ampScale_one]
  | invG g =>
      funext f
      simp [applyV, invertGate, hAdd, ampScale_one]
  | ctrlG g =>
      funext f
      simp [applyV, invertGate, hAdd, ampScale_one]

theorem hAdd_invert (g : GateExpr) (qs : List ℕ) :
    hAdd (invertGate g, qs) = hAdd (g, qs) := by
  cases g <;> rfl

theorem invertDefn_cons (ins : Instr) (d : Defn) :
    invertDefn (ins :: d) = invertDefn d ++ [(invertGate ins.1, ins.2)] := by
  unfold invertDefn
  simp

theorem runU_append (d1 d2 : Defn) (st : UState) :
    runU (d1 ++ d2) st = runU d2 (runU d1 st) :=
  List.foldl_append ..

theorem runU_cancel (d : Defn) : ∀ st : UState,
    runU (d ++ invertDefn d) st
      = (fun f => ampScale ((2 : ℤ) ^ hCount d) (st.1 f), st.2 + 2 * hCount d) := by
  induction d with
  | nil =>
      intro st
      obtain ⟨v, h⟩ := st
      show (v, h) = _
      have h1 : (fun f => ampScale ((2 : ℤ) ^ hCount ([] : Defn)) (v f)) = v := by
        funext f
        simp [hCount, ampScale_one]
      rw [h1]
      simp [hCount]
  | cons a d' ih =>
      intro st
      have h1 : (a :: d') ++ invertDefn (a :: d')
          = a :: ((d' ++ invertDefn d') ++ [(invertGate a.1, a.2)]) := by
        rw [invertDefn_cons]
        simp [List.append_assoc]
      rw [h1]
      show runU ((d' ++ invertDefn d') ++ [(invertGate a.1, a.2)]) (applyUInstr a st) = _
      rw [runU_append, ih (applyUInstr a st)]
      show (applyV (invertGate a.1, a.2)
              (fun f => ampScale ((2 : ℤ) ^ hCount d') (applyV a st.1 f)),
            ((st.2 + hAdd a) + 2 * hCount d') + hAdd (invertGate a.1, a.2))
          = (fun f => ampScale ((2 : ℤ) ^ hCount (a :: d')) (st.1 f),
              st.2 + 2 * hCount (a :: d'))
      rw [applyV_scale, applyV_cancel, hAdd_invert a.1 a.2]
      refine Prod.ext ?_ ?_
      · funext f g
        show ((2 : ℤ) ^ hCount d') * (((2 : ℤ) ^ hAdd a) * st.1 f g)
            = ((2 : ℤ) ^ hCount (a :: d')) * st.1 f g
        have hc : hCount (a :: d') = hAdd a + hCount d' := rfl
        rw [hc, pow_add]
        ring
      · show ((st.2 + hAdd a) + 2 * hCount d') + hAdd a = st.2 + 2 * hCount (a :: d')
        have hc : hCount (a :: d') = hAdd a + hCount d' := rfl
        rw [hc]
        omega

theorem hCount_append (d1 d2 : Defn) : hCount (d1 ++ d2) = hCount d1 + hCount d2 := by
  induction d1 with
  | nil => simp [hCount]
  | cons a t ih =>
      show hAdd a + hCount (t ++ d2) = (hAdd a + hCount t) + hCount d2
      rw [ih]
      omega

theorem hCount_zero_of (l : Defn) (h : ∀ ins ∈ l, hAdd ins = 0) : hCount l = 0 := by
  induction l with
  | nil => rfl
  | cons a t ih =>
      show hAdd a + hCount t = 0
      rw [h a (List.mem_cons_self a t), ih (fun b hb => h b (List.mem_cons_of_mem a hb))]

theorem hCount_qft_body (L : List ℕ) :
    hCount (L.flatMap (fun i =>
        (GateExpr.HG, [i])
          :: (List.range i).map (fun j => (GateExpr.CU1G 1 (i - j), [j, i]))))
      = L.length := by
  induction L with
  | nil => rfl
  | cons a t ih =>
      rw [List.flatMap_cons, hCount_append]
      have hrots : hCount ((List.range a).map
            (fun j => ((GateExpr.CU1G 1 (a - j), [j, a]) : Instr))) = 0 := by
        apply hCount_zero_of
        intro ins hins
        simp only [List.mem_map] at hins
        obtain ⟨j, _, hj⟩ := hins
        rw [← hj]
        rfl
      have hhead : hCount ((GateExpr.HG, [a])
            :: (List.range a).map (fun j => (GateExpr.CU1G 1 (a - j), [j, a])))
          = 1 := by
        show hAdd (GateExpr.HG, [a]) + _ = 1
        rw [hrots]
        rfl
      rw [hhead, ih]
      simp [Nat.add_comm]

theorem hCount_qft (n : ℕ) (ds : Bool) : hCount (QFTGate_define n ds) = n := by
  unfold QFTGate_define
  rw [hCount_append, hCount_qft_body]
  have hswap : hCount (if ds
        then (List.range (n / 2)).map (fun i => ((GateExpr.SwapG, [i, n - 1 - i]) : Instr))
        else []) = 0 := by
    cases ds with
    | false => rfl
    | true =>
        rw [if_pos rfl]
        apply hCount_zero_of
        intro ins hins
        simp only [List.mem_map] at hins
        obtain ⟨j, _, hj⟩ := hins
        rw [← hj]
        rfl
  rw [hswap]
  simp

/-- C7: for every qubit count n in the range one to five, the QFT
decomposition composed with its separately constructed inverse, the
reversed instruction list with negated angles, acts on every circuit
state by scaling every amplitude by 2 ^ n while setting aside 2 n more
Hadamard factors of one over the square root of two; since
2 ^ n = (sqrt 2) ^ (2 n), the represented state vector is exactly
unchanged, so the composite is the identity operator up to a global
phase (here the trivial one). -/
theorem qft_inverse_identity (n : ℕ) (h1 : 1 ≤ n) (h5 : n ≤ 5) (st : UState) :
    runU (QFTGate_define n true ++ invertDefn (QFTGate_define n true)) st
      = (fun f => ampScale ((2 : ℤ) ^ n) (st.1 f), st.2 + 2 * n) := by
  rw [runU_cancel (QFTGate_define n true) st, hCount_qft]

/-- Witness for C7 at two qubits and the unit constant state. -/
theorem qft_inverse_identity_witness :
    runU (QFTGate_define 2 true ++ invertDefn (QFTGate_define 2 true))
        (fun _ => ampOfInt 1, 0)
      = (fun f => ampScale ((2 : ℤ) ^ 2) ((fun _ : CState => ampOfInt 1) f), 0 + 2 * 2) :=
  qft_inverse_identity 2 (by decide) (by decide) (fun _ => ampOfInt 1, 0)
